import Mathlib

/-!
Shallow embedding of the safefeat feature-building engine
(src/safefeat/core.py, src/safefeat/spec.py, src/safefeat/audit.py).

Timestamps and timedeltas are modelled as integers (nanoseconds, pandas
`datetime64[ns]` / `timedelta64[ns]`).  Entity identifiers are integers.
Dataframes are lists of typed rows; event-table attribute columns are an
association list from column name to integer value, with the table schema
(`attrCols`) kept alongside.  Aggregated values are rationals (`mean` is
exact rational division here; the claims under study do not depend on
float rounding).
-/

deriving instance DecidableEq for Except

namespace SafeFeat

/-- A spine row: `(entity_id, cutoff_time)`.  `cutoff` is already in the
canonical timestamp representation, so `pd.to_datetime` is the identity. -/
structure SpineRow where
  entity : Int
  cutoff : Int
deriving DecidableEq

/-- An event row: entity key, event timestamp, and the remaining attribute
columns as an association list (column name to value). -/
structure EventRow where
  entity : Int
  etime : Int
  attrs : List (String × Int)
deriving DecidableEq

/-- An events table: its attribute-column schema plus its rows. -/
structure EventsTable where
  attrCols : List String
  rows : List EventRow
deriving DecidableEq

/-- One joined spine-row × event-row pair (`spine.merge(events, on=entity)`). -/
abbrev Pair := SpineRow × EventRow

/-- `spine.merge(events, on=entity_col, how="inner")`: every spine row paired
with every event row sharing its entity, in spine order. -/
def mergeOnEntity (spine : List SpineRow) (events : List EventRow) : List Pair :=
  spine.foldr
    (fun s acc => ((events.filter fun e => e.entity == s.entity).map fun e => (s, e)) ++ acc)
    []

/-- The "future" mask: `event_time > cutoff_time + allowed_lag`
(core.py line 220). -/
def futureMask (lag : Int) (p : Pair) : Bool :=
  decide (p.1.cutoff + lag < p.2.etime)

/-- `Series.max()`: maximum of a list of values, `none` for an empty list. -/
def seriesMax : List Int → Option Int
  | [] => none
  | x :: xs => some (xs.foldl max x)

/-- The audit dictionary built by `filter_events_point_in_time`
(core.py lines 234-239). -/
structure AuditDict where
  total_joined_pairs : Nat
  kept_pairs : Nat
  dropped_future_pairs : Nat
  max_future_delta : Option Int
deriving DecidableEq

/-- `filter_events_point_in_time` (core.py lines 176-242): inner-join spine and
events on entity, drop every pair with `event_time > cutoff_time + allowed_lag`,
and report the audit counts.  The audit dictionary is always computed here; the
source computes it only under `collect_audit`, a flag that changes the returned
tuple but never the values. -/
def filter_events_point_in_time (spine : List SpineRow) (events : List EventRow)
    (lag : Int) : List Pair × AuditDict :=
  let merged := mergeOnEntity spine events
  let total := merged.length
  let dropped := merged.filter (futureMask lag)
  let kept := merged.filter fun p => ! futureMask lag p
  let maxDelta : Option Int :=
    if 0 < dropped.length then
      seriesMax (dropped.map fun p => p.2.etime - (p.1.cutoff + lag))
    else none
  (kept, ⟨total, kept.length, dropped.length, maxDelta⟩)

/-- The window mask of `_events_in_window` (core.py lines 293-294):
`(event_time > cutoff - window) & (event_time <= cutoff)`. -/
def inWindowMask (window : Int) (p : Pair) : Bool :=
  decide (p.1.cutoff - window < p.2.etime) && decide (p.2.etime ≤ p.1.cutoff)

/-- `_events_in_window` (core.py lines 245-299): causal filter, then restrict
to the lookback window; the audit dictionary passes through unchanged. -/
def eventsInWindow (spine : List SpineRow) (events : List EventRow)
    (window lag : Int) : List Pair × AuditDict :=
  let fr := filter_events_point_in_time spine events lag
  (fr.1.filter (inWindowMask window), fr.2)

/-- The `(entity_id, cutoff_time)` group of a joined frame:
`groupby([entity_col, cutoff_col])` restricted to one key. -/
def groupPairs (pairs : List Pair) (ent cut : Int) : List Pair :=
  pairs.filter fun p => p.1.entity == ent && p.1.cutoff == cut

/-- The columns of the joined frame `in_window`: the merge of
`spine[[entity_col, cutoff_col]]` with the events table (entity is the merge
key; attribute names are assumed distinct from the three key columns, as the
suffixing pandas would otherwise perform is not modelled). -/
def mergedColumns (ecol ccol tcol : String) (attrCols : List String) : List String :=
  ecol :: ccol :: tcol :: attrCols

/-- Column extraction `in_window[dim]` on one joined pair: the entity and
cutoff come from the spine side, the event time from the events side, any
other name from the event attributes. -/
def getCol (ecol ccol tcol : String) (dim : String) (p : Pair) : Rat :=
  if dim = ecol then (p.1.entity : Rat)
  else if dim = ccol then (p.1.cutoff : Rat)
  else if dim = tcol then (p.2.etime : Rat)
  else (((p.2.attrs.lookup dim).getD 0 : Int) : Rat)

/-- Left-merge of a per-group aggregate back onto one spine row: the group key
is present on the right iff the group is non-empty (group-by emits no row for
an empty group), so a row with no qualifying events receives a null. -/
def leftJoinVal (pairs : List Pair) (s : SpineRow) (f : List Pair → Rat) : Option Rat :=
  let g := groupPairs pairs s.entity s.cutoff
  if g.isEmpty then none else some (f g)

/-- `groupby(...).size()` merged back and `fillna(0)` (core.py lines 89-96). -/
def countFeatVal (pairs : List Pair) (s : SpineRow) : Rat :=
  (leftJoinVal pairs s fun g => (g.length : Rat)).getD 0

/-- `gb[dim].sum()` merged back and `fillna(0)` (core.py lines 101-109). -/
def sumFeatVal (ecol ccol tcol dim : String) (pairs : List Pair) (s : SpineRow) : Rat :=
  (leftJoinVal pairs s fun g => (g.map (getCol ecol ccol tcol dim)).sum).getD 0

/-- `gb[dim].mean()` merged back and `fillna(0)` (core.py lines 111-119). -/
def meanFeatVal (ecol ccol tcol dim : String) (pairs : List Pair) (s : SpineRow) : Rat :=
  (leftJoinVal pairs s fun g =>
    (g.map (getCol ecol ccol tcol dim)).sum / (g.length : Rat)).getD 0

/-- `gb[dim].nunique()` merged back and `fillna(0)` (core.py lines 120-128). -/
def nuniqueFeatVal (ecol ccol tcol dim : String) (pairs : List Pair) (s : SpineRow) : Rat :=
  (leftJoinVal pairs s fun g => ((g.map (getCol ecol ccol tcol dim)).dedup.length : Rat)).getD 0

/-- Nanoseconds per day: the unit conversion behind `Timedelta.days`. -/
def nsPerDay : Int := 86400000000000

/-- `_compute_recency` per spine row (core.py lines 360-371): maximum
qualifying event time for the `(entity, cutoff)` group, then
`(cutoff - last_event_time).dt.days`.  pandas `.dt.days` is the days component
of the normalized timedelta, i.e. floor division (toward negative infinity) of
the nanosecond difference by the day length; the merge back onto the spine is
a left join, so an empty group yields a null. -/
def recencyVal (pairs : List Pair) (s : SpineRow) : Option Int :=
  match seriesMax ((groupPairs pairs s.entity s.cutoff).map fun p => p.2.etime) with
  | none => none
  | some m => some (Int.fdiv (s.cutoff - m) nsPerDay)

/-! ### Specification layer (spec.py) -/

/-- The closed allow-list of aggregation kinds (spec.py line 72). -/
def allowedAggs : List String := ["count", "sum", "mean", "nunique"]

/-- `WindowAgg.__post_init__` (spec.py lines 66-87): the wildcard dimension
must carry exactly `["count"]`; every aggregation of a named dimension must be
in the allow-list (the first offending entry raises).  The list-of-strings
shape checks are enforced by the embedding's types. -/
def validateMetrics : List (String × List String) → Except String Unit
  | [] => .ok ()
  | (dim, aggs) :: rest =>
    if dim = "*" then
      if aggs = ["count"] then validateMetrics rest
      else .error "the wildcard dimension only supports a single count"
    else
      match aggs.find? (fun a => ! allowedAggs.contains a) with
      | some a => .error ("unsupported aggregation " ++ a ++ " for dimension " ++ dim)
      | none => validateMetrics rest

/-- A window-aggregation block (spec.py `WindowAgg`): its table, its windows as
(label, parsed length) pairs — the label is the duration string, the length its
parsed nanosecond value — and its metrics mapping in declaration order. -/
structure WindowAgg where
  table : String
  windows : List (String × Int)
  metrics : List (String × List String)
deriving DecidableEq

/-- A specification block (`WindowAgg` or `RecencyBlock`); the recency filter
models `filter_col`/`filter_value`, which `RecencyBlock.__post_init__` forces
to be supplied together or not at all. -/
inductive Block where
  | window (w : WindowAgg)
  | recency (table : String) (filt : Option (String × Int))
deriving DecidableEq

/-- Whether a block is a window-aggregation block over the given table. -/
def referencesTable (b : Block) (name : String) : Bool :=
  match b with
  | .window w => w.table == name
  | .recency _ _ => false

/-- Whether a block contributes an audit entry for the given table: a
window-aggregation block over it whose window list is non-empty. -/
def contributesAudit (b : Block) (name : String) : Bool :=
  match b with
  | .window w => w.table == name && ! w.windows.isEmpty
  | .recency _ _ => false

/-! ### Orchestrator (core.py build_features) -/

/-- The output frame: the (timestamp-parsed) spine rows plus the appended
feature columns, each aligned positionally with the rows. -/
structure OutDF where
  rows : List SpineRow
  feats : List (String × List (Option Rat))
deriving DecidableEq

/-- `out[name] = values`: replace the column in place if the name exists,
append it otherwise. -/
def setCol (df : OutDF) (name : String) (vals : List (Option Rat)) : OutDF :=
  if (df.feats.map Prod.fst).contains name then
    { df with feats := df.feats.map fun c => if c.1 = name then (name, vals) else c }
  else
    { df with feats := df.feats ++ [(name, vals)] }

/-- ASCII lowercase of one character (`str.lower()` restricted to the ASCII
duration labels the engine receives). -/
def lowerChar (c : Char) : Char :=
  if 65 ≤ c.toNat ∧ c.toNat ≤ 90 then Char.ofNat (c.toNat + 32) else c

/-- `str.lower()` on an ASCII window label. -/
def asciiLower (s : String) : String := ⟨s.data.map lowerChar⟩

/-- Feature names, core.py lines 94, 107, 117, 126 (`w.lower()` on the window
label). -/
def countColName (table wlbl : String) : String :=
  table ++ "__n_events__" ++ asciiLower wlbl

/-- Name of a named-column aggregation feature. -/
def aggColName (table dim agg wlbl : String) : String :=
  table ++ "__" ++ dim ++ "__" ++ agg ++ "__" ++ asciiLower wlbl

/-- Recency feature name, core.py lines 161-163. -/
def recencyColName (table : String) (filt : Option (String × Int)) : String :=
  table ++ "__recency" ++
    (match filt with
     | none => ""
     | some (c, v) => "__" ++ c ++ "_" ++ toString v)

/-- The body of `for dim, aggs in block.metrics.items()` (core.py lines
82-128) for one dimension: the missing-column check against the joined frame,
then the wildcard count or the named-column sum/mean/nunique assignments, each
column built by the left merge of the per-group aggregate onto the spine
subset. -/
def processDim (ecol ccol tcol : String) (attrCols : List String)
    (spine : List SpineRow) (pairs : List Pair) (table wlbl : String)
    (dim : String) (aggs : List String) (out : OutDF) : Except String OutDF :=
  if dim ≠ "*" ∧ dim ∉ mergedColumns ecol ccol tcol attrCols then
    .error ("Column " ++ dim ++ " not found in table " ++ table)
  else if dim = "*" then
    .ok (if aggs.contains "count" then
      setCol out (countColName table wlbl) (spine.map fun s => some (countFeatVal pairs s))
    else out)
  else
    let o1 := if aggs.contains "sum" then
        setCol out (aggColName table dim "sum" wlbl)
          (spine.map fun s => some (sumFeatVal ecol ccol tcol dim pairs s))
      else out
    let o2 := if aggs.contains "mean" then
        setCol o1 (aggColName table dim "mean" wlbl)
          (spine.map fun s => some (meanFeatVal ecol ccol tcol dim pairs s))
      else o1
    let o3 := if aggs.contains "nunique" then
        setCol o2 (aggColName table dim "nunique" wlbl)
          (spine.map fun s => some (nuniqueFeatVal ecol ccol tcol dim pairs s))
      else o2
    .ok o3

/-- The metrics loop of one window (core.py lines 82-128); an error raised
for one dimension aborts the whole build. -/
def processMetrics (ecol ccol tcol : String) (attrCols : List String)
    (spine : List SpineRow) (pairs : List Pair) (table wlbl : String) :
    List (String × List String) → OutDF → Except String OutDF
  | [], out => .ok out
  | (dim, aggs) :: rest, out =>
    match processDim ecol ccol tcol attrCols spine pairs table wlbl dim aggs out with
    | .error e => .error e
    | .ok out => processMetrics ecol ccol tcol attrCols spine pairs table wlbl rest out

/-- The window loop of one `WindowAgg` block (core.py lines 60-128): for each
window, restrict the causally-filtered join to the window and run the metrics
loop. -/
def processWindows (ecol ccol tcol : String) (attrCols : List String)
    (spine : List SpineRow) (events : List EventRow) (table : String) (lag : Int) :
    List (String × Int) → List (String × List String) → OutDF → Except String OutDF
  | [], _, out => .ok out
  | (wlbl, wlen) :: rest, metrics, out =>
    match processMetrics ecol ccol tcol attrCols spine
        (eventsInWindow spine events wlen lag).1 table wlbl metrics out with
    | .error e => .error e
    | .ok out => processWindows ecol ccol tcol attrCols spine events table lag rest metrics out

/-- `AuditReport.add_table` (audit.py lines 43-45): add or replace the audit
entry for a table, keyed by table name. -/
def addTable (rep : List (String × AuditDict)) (name : String) (a : AuditDict) :
    List (String × AuditDict) :=
  if (rep.map Prod.fst).contains name then
    rep.map fun e => if e.1 = name then (name, a) else e
  else rep ++ [(name, a)]

/-- The block loop of `build_features` (core.py lines 52-169).  For a
`WindowAgg` block the audit record is captured from the block's first window
when a report was requested (`audit_data_for_table`, core.py lines 57-77 and
130-139); a block whose window list is empty captures none.  A recency block
filters a copy of the events table by the optional equality predicate, runs
the causal filter, and writes one column (core.py lines 141-166). -/
def buildGo (tables : String → EventsTable) (etcols : String → String)
    (ecol ccol : String) (lag : Int) (rr : Bool) (spine : List SpineRow) :
    List Block → OutDF → List (String × AuditDict) →
    Except String (OutDF × List (String × AuditDict))
  | [], out, rep => .ok (out, rep)
  | .window w :: rest, out, rep =>
    match processWindows ecol ccol (etcols w.table) (tables w.table).attrCols spine
        (tables w.table).rows w.table lag w.windows w.metrics out with
    | .error e => .error e
    | .ok out =>
      let rep :=
        if rr then
          match w.windows with
          | [] => rep
          | (_, wlen) :: _ =>
            addTable rep w.table (eventsInWindow spine (tables w.table).rows wlen lag).2
        else rep
      buildGo tables etcols ecol ccol lag rr spine rest out rep
  | .recency table filt :: rest, out, rep =>
    let ev := tables table
    let _tcol := etcols table
    let filteredEvents :=
      match filt with
      | none => ev.rows
      | some (c, v) => ev.rows.filter fun e => e.attrs.lookup c == some v
    let pairs := (filter_events_point_in_time spine filteredEvents lag).1
    let out := setCol out (recencyColName table filt)
      (spine.map fun s => (recencyVal pairs s).map fun d => (d : Rat))
    buildGo tables etcols ecol ccol lag rr spine rest out rep

/-- `build_features` (core.py lines 5-173): copy the spine, parse its cutoff
column (the identity on the canonical representation), and run the block loop
starting from an output with no feature columns and an empty audit report.
The report is accumulated only when `return_report` is set, mirroring
`collect_audit=return_report`; the mapping arguments `tables`/`etcols` model
the dictionaries, total on the keys the spec references. -/
def build_features (spine : List SpineRow) (tables : String → EventsTable)
    (etcols : String → String) (blocks : List Block) (ecol ccol : String)
    (lag : Int) (rr : Bool) : Except String (OutDF × List (String × AuditDict)) :=
  buildGo tables etcols ecol ccol lag rr spine blocks ⟨spine, []⟩ []

/-! ### Object-store model of mutation (for the no-input-mutation property)

The Python functions operate on heap-allocated dataframes: `df.copy()`
allocates a fresh object, `df[col] = ...` writes the referenced object in
place, and every other dataframe operation builds a new object.  The store
maps references (allocation order) to objects; `next` is the next fresh
reference.  The store versions below mirror the source line by line at the
granularity of object allocations and in-place writes, reusing the pure
definitions for the computed values. -/

/-- A heap object: one of the dataframe shapes the engine handles. -/
inductive Obj where
  | spineT (rows : List SpineRow)
  | eventsT (t : EventsTable)
  | outT (df : OutDF)
deriving DecidableEq

/-- The object store: memory and the next fresh reference. -/
structure Store where
  mem : Nat → Option Obj
  next : Nat

/-- In-place write (`df[col] = ...` on the object at `r`). -/
def Store.set (σ : Store) (r : Nat) (o : Obj) : Store :=
  ⟨fun q => if q = r then some o else σ.mem q, σ.next⟩

/-- Allocation (`df.copy()` and every constructor of a new dataframe). -/
def Store.alloc (σ : Store) (o : Obj) : Store × Nat :=
  (⟨fun q => if q = σ.next then some o else σ.mem q, σ.next + 1⟩, σ.next)

/-- Read a spine object and an events object from the store (the schema
checks: a reference not holding the expected frame shape raises before
anything is copied or written). -/
def readSpineEvents (σ : Store) (rs re : Nat) : Option (List SpineRow × EventsTable) :=
  match σ.mem rs, σ.mem re with
  | some (.spineT sp), some (.eventsT ev) => some (sp, ev)
  | _, _ => none

/-- Read the output object and an events object from the store. -/
def readOutEvents (σ : Store) (rOut re : Nat) : Option (OutDF × EventsTable) :=
  match σ.mem rOut, σ.mem re with
  | some (.outT out), some (.eventsT ev) => some (out, ev)
  | _, _ => none

/-- `filter_events_point_in_time` over the store (core.py lines 203-242): the
schema checks raise before anything is copied (the mismatch branch leaves the
store untouched); then `spine = spine.copy()` and `events = events.copy()`
allocate (at references `σ.next` and `σ.next + 1`), the two timestamp parses
write those copies in place (the parse is the identity on canonical
timestamps), and all later frames (`merged_df`, `dropped_future`, the
filtered result) are new objects. -/
def filter_events_point_in_time_st (σ : Store) (rs re : Nat) (lag : Int) :
    Store × Except String (List Pair × AuditDict) :=
  match readSpineEvents σ rs re with
  | some (sp, ev) =>
    let σ2 := ((σ.alloc (.spineT sp)).1.alloc (.eventsT ev)).1
    let σ3 := σ2.set σ.next (.spineT sp)
    let σ4 := σ3.set (σ.next + 1) (.eventsT ev)
    (σ4, .ok (filter_events_point_in_time sp ev.rows lag))
  | none => (σ, .error "required columns not found")

/-- The block loop of `build_features` over the store: window blocks read the
events table and write the feature columns onto the output object at `rOut`
(core.py lines 96, 109, 119, 128); recency blocks additionally allocate
`filtered_events = events_df.copy()` (core.py line 146) before writing their
column (line 166).  A missing-column error aborts with the store as it stands. -/
def buildGo_st (tableRefs : String → Nat) (etcols : String → String)
    (ecol ccol : String) (lag : Int) (rr : Bool) (spine : List SpineRow) :
    List Block → Store → Nat → List (String × AuditDict) →
    Store × Except String (List (String × AuditDict))
  | [], σ, _, rep => (σ, .ok rep)
  | .window w :: rest, σ, rOut, rep =>
    (match readOutEvents σ rOut (tableRefs w.table) with
     | some (out, ev) =>
       match processWindows ecol ccol (etcols w.table) ev.attrCols spine ev.rows
           w.table lag w.windows w.metrics out with
       | .error e => (σ, .error e)
       | .ok out2 =>
         let σ2 := σ.set rOut (.outT out2)
         let rep2 :=
           if rr then
             match w.windows with
             | [] => rep
             | (_, wlen) :: _ => addTable rep w.table (eventsInWindow spine ev.rows wlen lag).2
           else rep
         buildGo_st tableRefs etcols ecol ccol lag rr spine rest σ2 rOut rep2
     | none => (σ, .error "table lookup failed"))
  | .recency table filt :: rest, σ, rOut, rep =>
    (match readOutEvents σ rOut (tableRefs table) with
     | some (out, ev) =>
       let σa := (σ.alloc (.eventsT ev)).1
       let filteredEvents :=
         match filt with
         | none => ev.rows
         | some (c, v) => ev.rows.filter fun e => e.attrs.lookup c == some v
       let pairs := (filter_events_point_in_time spine filteredEvents lag).1
       let out2 := setCol out (recencyColName table filt)
         (spine.map fun s => (recencyVal pairs s).map fun d => (d : Rat))
       let σ2 := σa.set rOut (.outT out2)
       buildGo_st tableRefs etcols ecol ccol lag rr spine rest σ2 rOut rep
     | none => (σ, .error "table lookup failed"))

/-- `build_features` over the store (core.py lines 40-173): validate, then
`out = spine.copy()` allocates the output object, `out[cutoff_col] = ...`
writes it in place, and the block loop only ever writes `out` and fresh
allocations. -/
def build_features_st (σ : Store) (rSpine : Nat) (tableRefs : String → Nat)
    (etcols : String → String) (blocks : List Block) (ecol ccol : String)
    (lag : Int) (rr : Bool) : Store × Except String (Nat × List (String × AuditDict)) :=
  match σ.mem rSpine with
  | some (.spineT sp) =>
    let σ2 := ((σ.alloc (.outT ⟨sp, []⟩)).1).set σ.next (.outT ⟨sp, []⟩)
    let res := buildGo_st tableRefs etcols ecol ccol lag rr sp blocks σ2 σ.next []
    (res.1, res.2.map fun rep => (σ.next, rep))
  | _ => (σ, .error "required columns not found in spine DataFrame")

/-! ### Helper lemmas -/

theorem futureMask_false_iff (lag : Int) (p : Pair) :
    (! futureMask lag p) = true ↔ p.2.etime ≤ p.1.cutoff + lag := by
  simp [futureMask, not_lt]

theorem filter_events_fst (spine : List SpineRow) (events : List EventRow) (lag : Int) :
    (filter_events_point_in_time spine events lag).1
      = (mergeOnEntity spine events).filter (fun p => ! futureMask lag p) := rfl

theorem mem_filter_events (spine : List SpineRow) (events : List EventRow) (lag : Int)
    (p : Pair) :
    p ∈ (filter_events_point_in_time spine events lag).1 ↔
      p ∈ mergeOnEntity spine events ∧ p.2.etime ≤ p.1.cutoff + lag := by
  rw [filter_events_fst, List.mem_filter, futureMask_false_iff]

theorem mem_eventsInWindow (spine : List SpineRow) (events : List EventRow)
    (w lag : Int) (p : Pair) :
    p ∈ (eventsInWindow spine events w lag).1 ↔
      p ∈ (filter_events_point_in_time spine events lag).1 ∧
        p.1.cutoff - w < p.2.etime ∧ p.2.etime ≤ p.1.cutoff := by
  simp [eventsInWindow, List.mem_filter, inWindowMask]

theorem foldl_max_spec (l : List Int) : ∀ a : Int,
    l.foldl max a ∈ a :: l ∧ ∀ x ∈ a :: l, x ≤ l.foldl max a := by
  induction l with
  | nil => intro a; simp
  | cons b l ih =>
    intro a
    have h := ih (max a b)
    constructor
    · rcases List.mem_cons.mp h.1 with h1 | h1
      · rw [List.foldl_cons, h1]
        rcases max_choice a b with hm | hm
        · rw [hm]; exact List.mem_cons_self _ _
        · rw [hm]; exact List.mem_cons_of_mem _ (List.mem_cons_self _ _)
      · simp only [List.foldl_cons]
        exact List.mem_cons_of_mem _ (List.mem_cons_of_mem _ h1)
    · intro x hx
      rcases List.mem_cons.mp hx with rfl | hx
      · exact le_trans (le_max_left x b) (h.2 _ (List.mem_cons_self _ _))
      rcases List.mem_cons.mp hx with rfl | hx
      · exact le_trans (le_max_right a x) (h.2 _ (List.mem_cons_self _ _))
      · exact h.2 _ (List.mem_cons_of_mem _ hx)

theorem seriesMax_spec (l : List Int) (m : Int) (h : seriesMax l = some m) :
    m ∈ l ∧ ∀ x ∈ l, x ≤ m := by
  cases l with
  | nil => simp [seriesMax] at h
  | cons a l =>
    have hs := foldl_max_spec l a
    simp only [seriesMax, Option.some.injEq] at h
    exact h ▸ hs

theorem seriesMax_isSome (l : List Int) (h : l ≠ []) : ∃ m, seriesMax l = some m := by
  cases l with
  | nil => exact absurd rfl h
  | cons a l => exact ⟨_, rfl⟩

/-! ### Claims -/

/-- C1: `filter_events_point_in_time` removes exactly the joined pairs with
`event_time > cutoff_time + allowed_lag`, so every surviving pair — and hence
every pair feeding a window aggregation (the window restrictor only filters
further) — satisfies `event_time <= cutoff_time + allowed_lag`, for every
spine, events table and non-negative allowed lag. -/
theorem causality_invariant (spine : List SpineRow) (events : List EventRow)
    (lag w : Int) (_hlag : 0 ≤ lag) :
    ((filter_events_point_in_time spine events lag).1
        = (mergeOnEntity spine events).filter (fun p => decide (p.2.etime ≤ p.1.cutoff + lag)))
    ∧ (∀ p ∈ (filter_events_point_in_time spine events lag).1,
        p.2.etime ≤ p.1.cutoff + lag)
    ∧ (∀ p ∈ (eventsInWindow spine events w lag).1,
        p.2.etime ≤ p.1.cutoff + lag) := by
  refine ⟨?_, ?_, ?_⟩
  · rw [filter_events_fst]
    exact List.filter_congr fun p _ => by
      simp only [futureMask]
      rw [← decide_not]
      exact decide_eq_decide.mpr not_lt
  · intro p hp
    exact ((mem_filter_events spine events lag p).mp hp).2
  · intro p hp
    exact ((mem_filter_events spine events lag p).mp
      ((mem_eventsInWindow spine events w lag p).mp hp).1).2

/-- C1 witness: the causality theorem applied at a concrete spine, events
table and lag. -/
theorem causality_invariant_witness :
    (filter_events_point_in_time [⟨1, 100⟩] [⟨1, 50, []⟩, ⟨1, 150, []⟩] 0).1
      = (mergeOnEntity [⟨1, 100⟩] [⟨1, 50, []⟩, ⟨1, 150, []⟩]).filter
          (fun p => decide (p.2.etime ≤ p.1.cutoff + 0)) :=
  (causality_invariant [⟨1, 100⟩] [⟨1, 50, []⟩, ⟨1, 150, []⟩] 0 10 (by decide)).1

/-- C2: the window restrictor keeps a causally-valid joined pair if and only
if `cutoff_time - window_length < event_time <= cutoff_time`; in particular an
event exactly `window_length` before the cutoff is excluded, and an event
exactly at the cutoff (with a positive window) is included. -/
theorem window_boundary (spine : List SpineRow) (events : List EventRow)
    (w lag : Int) (p : Pair) :
    (p ∈ (eventsInWindow spine events w lag).1 ↔
      p ∈ (filter_events_point_in_time spine events lag).1 ∧
        p.1.cutoff - w < p.2.etime ∧ p.2.etime ≤ p.1.cutoff)
    ∧ (p.2.etime = p.1.cutoff - w → p ∉ (eventsInWindow spine events w lag).1)
    ∧ (p.2.etime = p.1.cutoff → 0 < w →
        p ∈ (filter_events_point_in_time spine events lag).1 →
        p ∈ (eventsInWindow spine events w lag).1) := by
  refine ⟨mem_eventsInWindow spine events w lag p, ?_, ?_⟩
  · intro he hmem
    have h := ((mem_eventsInWindow spine events w lag p).mp hmem).2.1
    rw [he] at h
    exact lt_irrefl _ h
  · intro he hw hmem
    exact (mem_eventsInWindow spine events w lag p).mpr ⟨hmem, by omega, by omega⟩

/-- C3: for every audited table, `kept_pairs + dropped_future_pairs =
total_joined_pairs`; `max_future_delta` is null exactly when nothing was
dropped, and otherwise is the maximum of
`event_time - (cutoff_time + allowed_lag)` over the dropped pairs, a strictly
positive duration. -/
theorem audit_accounting (spine : List SpineRow) (events : List EventRow) (lag : Int) :
    ((filter_events_point_in_time spine events lag).2.kept_pairs
        + (filter_events_point_in_time spine events lag).2.dropped_future_pairs
        = (filter_events_point_in_time spine events lag).2.total_joined_pairs)
    ∧ ((filter_events_point_in_time spine events lag).2.dropped_future_pairs = 0 →
        (filter_events_point_in_time spine events lag).2.max_future_delta = none)
    ∧ (0 < (filter_events_point_in_time spine events lag).2.dropped_future_pairs →
        ∃ d, (filter_events_point_in_time spine events lag).2.max_future_delta = some d
          ∧ 0 < d
          ∧ (∀ p ∈ (mergeOnEntity spine events).filter (futureMask lag),
              p.2.etime - (p.1.cutoff + lag) ≤ d)
          ∧ (∃ p ∈ (mergeOnEntity spine events).filter (futureMask lag),
              p.2.etime - (p.1.cutoff + lag) = d)) := by
  refine ⟨?_, ?_, ?_⟩
  · show ((mergeOnEntity spine events).filter (fun p => ! futureMask lag p)).length
        + ((mergeOnEntity spine events).filter (futureMask lag)).length
        = (mergeOnEntity spine events).length
    rw [List.length_eq_length_filter_add (l := mergeOnEntity spine events) (futureMask lag),
      Nat.add_comm]
  · intro h
    show (if 0 < ((mergeOnEntity spine events).filter (futureMask lag)).length then _ else none)
      = none
    have h0 : ((mergeOnEntity spine events).filter (futureMask lag)).length = 0 := h
    rw [h0]
    simp
  · intro h
    have h0 : 0 < ((mergeOnEntity spine events).filter (futureMask lag)).length := h
    have hne : ((mergeOnEntity spine events).filter (futureMask lag)).map
        (fun p => p.2.etime - (p.1.cutoff + lag)) ≠ [] := by
      intro hnil
      rw [← List.length_eq_zero] at hnil
      rw [List.length_map] at hnil
      omega
    obtain ⟨m, hm⟩ := seriesMax_isSome _ hne
    obtain ⟨hmem, hub⟩ := seriesMax_spec _ _ hm
    obtain ⟨p, hp, hpm⟩ := List.mem_map.mp hmem
    refine ⟨m, ?_, ?_, ?_, ⟨p, hp, hpm⟩⟩
    · show (if 0 < ((mergeOnEntity spine events).filter (futureMask lag)).length then
          seriesMax (((mergeOnEntity spine events).filter (futureMask lag)).map
            (fun p => p.2.etime - (p.1.cutoff + lag)))
        else none) = some m
      rw [if_pos h0, hm]
    · have hmask : futureMask lag p = true := (List.mem_filter.mp hp).2
      have hlt : p.1.cutoff + lag < p.2.etime := by
        simpa [futureMask] using hmask
      omega
    · intro q hq
      exact hub _ (List.mem_map.mpr ⟨q, hq, rfl⟩)

/-- C5: a spine row whose `(entity, cutoff)` group has no qualifying event
gets `0` for the count, sum, mean and nunique features (left merge then
`fillna(0)`) but a null for the recency feature (left merge with no fill). -/
theorem empty_group_defaults (spine : List SpineRow) (events revents : List EventRow)
    (ecol ccol tcol dim : String) (w lag : Int) (s : SpineRow)
    (hg : groupPairs (eventsInWindow spine events w lag).1 s.entity s.cutoff = [])
    (hr : groupPairs (filter_events_point_in_time spine revents lag).1 s.entity s.cutoff = []) :
    countFeatVal (eventsInWindow spine events w lag).1 s = 0
    ∧ sumFeatVal ecol ccol tcol dim (eventsInWindow spine events w lag).1 s = 0
    ∧ meanFeatVal ecol ccol tcol dim (eventsInWindow spine events w lag).1 s = 0
    ∧ nuniqueFeatVal ecol ccol tcol dim (eventsInWindow spine events w lag).1 s = 0
    ∧ recencyVal (filter_events_point_in_time spine revents lag).1 s = none := by
  refine ⟨?_, ?_, ?_, ?_, ?_⟩ <;>
    simp [countFeatVal, sumFeatVal, meanFeatVal, nuniqueFeatVal, recencyVal,
      leftJoinVal, hg, hr, seriesMax]

/-- C5 witness: the default-value theorem applied at a concrete spine with no
events. -/
theorem empty_group_defaults_witness :
    countFeatVal (eventsInWindow [⟨1, 0⟩] [] 1 0).1 ⟨1, 0⟩ = 0 :=
  (empty_group_defaults [⟨1, 0⟩] [] [] "e" "c" "t" "d" 1 0 ⟨1, 0⟩ rfl rfl).1

/-- C6 counterexample: cutoff at time 0, one event half a day after the cutoff
(43200000000000 ns), allowed lag one day: the event survives the causal
filter, and the code computes `(cutoff - last_event).dt.days = -1` (floor of
-0.5 days), while truncation toward zero would give 0 — so the recency value
is not the day difference truncated toward zero. -/
theorem recency_truncation_cex :
    recencyVal (filter_events_point_in_time [⟨1, 0⟩] [⟨1, 43200000000000, []⟩]
        86400000000000).1 ⟨1, 0⟩ = some (-1)
    ∧ Int.tdiv ((0 : Int) - 43200000000000) nsPerDay = 0
    ∧ ((-1 : Int) ≠ 0) := by decide

/-- C6 amended: for a group with at least one causally-qualifying event, the
recency value is the day difference `cutoff_time - max(event_time)` rounded
toward negative infinity (floor division of the nanosecond difference by the
day length) — truncation toward zero only coincides with this when the most
recent event is not after the cutoff. -/
theorem recency_floor_days (spine : List SpineRow) (events : List EventRow)
    (lag : Int) (s : SpineRow)
    (h : groupPairs (filter_events_point_in_time spine events lag).1 s.entity s.cutoff ≠ []) :
    ∃ m, (∃ p ∈ groupPairs (filter_events_point_in_time spine events lag).1 s.entity s.cutoff,
            p.2.etime = m)
      ∧ (∀ p ∈ groupPairs (filter_events_point_in_time spine events lag).1 s.entity s.cutoff,
            p.2.etime ≤ m)
      ∧ recencyVal (filter_events_point_in_time spine events lag).1 s
          = some (Int.fdiv (s.cutoff - m) nsPerDay) := by
  have hne : (groupPairs (filter_events_point_in_time spine events lag).1
      s.entity s.cutoff).map (fun p => p.2.etime) ≠ [] := by
    simpa using h
  obtain ⟨m, hm⟩ := seriesMax_isSome _ hne
  obtain ⟨hmem, hub⟩ := seriesMax_spec _ _ hm
  obtain ⟨p, hp, hpm⟩ := List.mem_map.mp hmem
  refine ⟨m, ⟨p, hp, hpm⟩, ?_, ?_⟩
  · intro q hq
    exact hub _ (List.mem_map.mpr ⟨q, hq, rfl⟩)
  · simp [recencyVal, hm]

/-- C6 witness: the floor-days theorem applied at a concrete input (one event
three days before the cutoff). -/
theorem recency_floor_days_witness :
    ∃ m, (∃ p ∈ groupPairs (filter_events_point_in_time [⟨1, 259200000000000⟩]
            [⟨1, 0, []⟩] 0).1 1 259200000000000, p.2.etime = m)
      ∧ (∀ p ∈ groupPairs (filter_events_point_in_time [⟨1, 259200000000000⟩]
            [⟨1, 0, []⟩] 0).1 1 259200000000000, p.2.etime ≤ m)
      ∧ recencyVal (filter_events_point_in_time [⟨1, 259200000000000⟩]
            [⟨1, 0, []⟩] 0).1 ⟨1, 259200000000000⟩
          = some (Int.fdiv ((259200000000000 : Int) - m) nsPerDay) :=
  recency_floor_days [⟨1, 259200000000000⟩] [⟨1, 0, []⟩] 0 ⟨1, 259200000000000⟩ (by decide)

/-- C8 counterexample: a metrics entry mapping the named column `amount` to
the aggregation kind `count` passes specification validation (`count` is in
the single allow-list used for every named dimension), and a build carrying it
runs without error and silently produces no feature column. -/
theorem named_count_accepted_cex :
    validateMetrics [("amount", ["count"])] = .ok ()
    ∧ (build_features [⟨1, 10⟩] (fun _ => ⟨["amount"], [⟨1, 5, [("amount", 7)]⟩]⟩)
        (fun _ => "event_time")
        [.window ⟨"events", [("30D", 30)], [("amount", ["count"])]⟩]
        "entity_id" "cutoff_time" 0 false)
      = .ok (⟨[⟨1, 10⟩], []⟩, []) := by decide

/-- C8 amended: specification validation fails exactly when a named dimension
lists an aggregation kind outside the closed set {count, sum, mean, nunique},
or the wildcard dimension lists anything other than exactly `["count"]`; in
particular a named column mapped to `count` is accepted. -/
theorem validateMetrics_error_iff (metrics : List (String × List String)) :
    (∃ e, validateMetrics metrics = .error e) ↔
      ∃ da ∈ metrics, (da.1 = "*" ∧ da.2 ≠ ["count"])
        ∨ (da.1 ≠ "*" ∧ ∃ a ∈ da.2, a ∉ allowedAggs) := by
  induction metrics with
  | nil => simp [validateMetrics]
  | cons da rest ih =>
    obtain ⟨dim, aggs⟩ := da
    by_cases hdim : dim = "*"
    · subst hdim
      by_cases hagg : aggs = ["count"]
      · subst hagg
        rw [show validateMetrics (("*", ["count"]) :: rest) = validateMetrics rest by
          simp [validateMetrics], ih]
        simp
      · constructor
        · intro _
          exact ⟨("*", aggs), List.mem_cons_self _ _, Or.inl ⟨rfl, hagg⟩⟩
        · intro _
          exact ⟨"the wildcard dimension only supports a single count",
            by simp [validateMetrics, hagg]⟩
    · cases hfind : aggs.find? (fun a => ! allowedAggs.contains a) with
      | some a =>
        have hpa : a ∉ allowedAggs := by
          have := List.find?_some hfind
          simpa using this
        have hma : a ∈ aggs := List.mem_of_find?_eq_some hfind
        constructor
        · intro _
          exact ⟨(dim, aggs), List.mem_cons_self _ _, Or.inr ⟨hdim, a, hma, hpa⟩⟩
        · intro _
          exact ⟨"unsupported aggregation " ++ a ++ " for dimension " ++ dim,
            by simp only [validateMetrics, if_neg hdim, hfind]⟩
      | none =>
        have hall : ∀ x ∈ aggs, x ∈ allowedAggs := by
          intro x hx
          have := List.find?_eq_none.mp hfind x hx
          simpa using this
        rw [show validateMetrics ((dim, aggs) :: rest) = validateMetrics rest by
          simp only [validateMetrics, if_neg hdim, hfind], ih]
        constructor
        · rintro ⟨b, hb, hprop⟩
          exact ⟨b, List.mem_cons_of_mem _ hb, hprop⟩
        · rintro ⟨b, hb, hprop⟩
          rcases List.mem_cons.mp hb with rfl | hb
          · rcases hprop with ⟨h1, _⟩ | ⟨_, a, ha, hna⟩
            · exact absurd h1 hdim
            · exact absurd (hall a ha) hna
          · exact ⟨b, hb, hprop⟩

theorem setCol_rows (df : OutDF) (name : String) (vals : List (Option Rat)) :
    (setCol df name vals).rows = df.rows := by
  unfold setCol
  split <;> rfl

theorem setCol_aligned (df : OutDF) (name : String) (vals : List (Option Rat)) (n : Nat)
    (hd : ∀ c ∈ df.feats, c.2.length = n) (hv : vals.length = n) :
    ∀ c ∈ (setCol df name vals).feats, c.2.length = n := by
  unfold setCol
  split
  · intro c hc
    obtain ⟨c0, hc0, hceq⟩ := List.mem_map.mp hc
    by_cases h : c0.1 = name
    · rw [← hceq]
      simp only [if_pos h]
      exact hv
    · rw [← hceq]
      simp only [if_neg h]
      exact hd c0 hc0
  · intro c hc
    rcases List.mem_append.mp hc with h | h
    · exact hd c h
    · simp only [List.mem_singleton] at h
      rw [h]
      exact hv

theorem setColIf_preserves (cond : Prop) [Decidable cond] (df : OutDF) (name : String)
    (vals : List (Option Rat)) (spine : List SpineRow)
    (hrows : df.rows = spine) (hal : ∀ c ∈ df.feats, c.2.length = spine.length)
    (hv : vals.length = spine.length) :
    ((if cond then setCol df name vals else df).rows = spine)
    ∧ ∀ c ∈ (if cond then setCol df name vals else df).feats, c.2.length = spine.length := by
  split
  · exact ⟨by rw [setCol_rows, hrows], setCol_aligned df name vals spine.length hal hv⟩
  · exact ⟨hrows, hal⟩

theorem processDim_preserves (ecol ccol tcol : String) (attrCols : List String)
    (spine : List SpineRow) (pairs : List Pair) (table wlbl dim : String)
    (aggs : List String) (out out2 : OutDF)
    (h : processDim ecol ccol tcol attrCols spine pairs table wlbl dim aggs out = .ok out2)
    (hrows : out.rows = spine) (hal : ∀ c ∈ out.feats, c.2.length = spine.length) :
    out2.rows = spine ∧ ∀ c ∈ out2.feats, c.2.length = spine.length := by
  unfold processDim at h
  split at h
  · cases h
  · split at h
    · rw [Except.ok.injEq] at h
      subst h
      exact setColIf_preserves _ _ _ _ spine hrows hal (List.length_map _ _)
    · rw [Except.ok.injEq] at h
      subst h
      have h1 := setColIf_preserves (aggs.contains "sum" = true) out
        (aggColName table dim "sum" wlbl)
        (spine.map fun s => some (sumFeatVal ecol ccol tcol dim pairs s))
        spine hrows hal (List.length_map _ _)
      have h2 := setColIf_preserves (aggs.contains "mean" = true) _
        (aggColName table dim "mean" wlbl)
        (spine.map fun s => some (meanFeatVal ecol ccol tcol dim pairs s))
        spine h1.1 h1.2 (List.length_map _ _)
      have h3 := setColIf_preserves (aggs.contains "nunique" = true) _
        (aggColName table dim "nunique" wlbl)
        (spine.map fun s => some (nuniqueFeatVal ecol ccol tcol dim pairs s))
        spine h2.1 h2.2 (List.length_map _ _)
      exact h3

theorem processMetrics_preserves (ecol ccol tcol : String) (attrCols : List String)
    (spine : List SpineRow) (pairs : List Pair) (table wlbl : String) :
    ∀ (metrics : List (String × List String)) (out out2 : OutDF),
    processMetrics ecol ccol tcol attrCols spine pairs table wlbl metrics out = .ok out2 →
    out.rows = spine → (∀ c ∈ out.feats, c.2.length = spine.length) →
    out2.rows = spine ∧ ∀ c ∈ out2.feats, c.2.length = spine.length := by
  intro metrics
  induction metrics with
  | nil =>
    intro out out2 h hrows hal
    rw [processMetrics, Except.ok.injEq] at h
    subst h
    exact ⟨hrows, hal⟩
  | cons da rest ih =>
    intro out out2 h hrows hal
    obtain ⟨dim, aggs⟩ := da
    rw [processMetrics] at h
    cases hd : processDim ecol ccol tcol attrCols spine pairs table wlbl dim aggs out with
    | error e => rw [hd] at h; cases h
    | ok o =>
      rw [hd] at h
      have hpd := processDim_preserves ecol ccol tcol attrCols spine pairs table wlbl dim
        aggs out o hd hrows hal
      exact ih o out2 h hpd.1 hpd.2

theorem processWindows_preserves (ecol ccol tcol : String) (attrCols : List String)
    (spine : List SpineRow) (events : List EventRow) (table : String) (lag : Int) :
    ∀ (windows : List (String × Int)) (metrics : List (String × List String))
      (out out2 : OutDF),
    processWindows ecol ccol tcol attrCols spine events table lag windows metrics out
      = .ok out2 →
    out.rows = spine → (∀ c ∈ out.feats, c.2.length = spine.length) →
    out2.rows = spine ∧ ∀ c ∈ out2.feats, c.2.length = spine.length := by
  intro windows
  induction windows with
  | nil =>
    intro metrics out out2 h hrows hal
    rw [processWindows, Except.ok.injEq] at h
    subst h
    exact ⟨hrows, hal⟩
  | cons wp rest ih =>
    intro metrics out out2 h hrows hal
    obtain ⟨wlbl, wlen⟩ := wp
    rw [processWindows] at h
    cases hm : processMetrics ecol ccol tcol attrCols spine
        (eventsInWindow spine events wlen lag).1 table wlbl metrics out with
    | error e => rw [hm] at h; cases h
    | ok o =>
      rw [hm] at h
      have hpm := processMetrics_preserves ecol ccol tcol attrCols spine
        (eventsInWindow spine events wlen lag).1 table wlbl metrics out o hm hrows hal
      exact ih metrics o out2 h hpm.1 hpm.2

theorem buildGo_preserves (tables : String → EventsTable) (etcols : String → String)
    (ecol ccol : String) (lag : Int) (rr : Bool) (spine : List SpineRow) :
    ∀ (blocks : List Block) (out : OutDF) (rep : List (String × AuditDict))
      (out2 : OutDF) (rep2 : List (String × AuditDict)),
    buildGo tables etcols ecol ccol lag rr spine blocks out rep = .ok (out2, rep2) →
    out.rows = spine → (∀ c ∈ out.feats, c.2.length = spine.length) →
    out2.rows = spine ∧ ∀ c ∈ out2.feats, c.2.length = spine.length := by
  intro blocks
  induction blocks with
  | nil =>
    intro out rep out2 rep2 h hrows hal
    rw [buildGo, Except.ok.injEq] at h
    injection h with h1 h2
    rw [← h1]
    exact ⟨hrows, hal⟩
  | cons b rest ih =>
    intro out rep out2 rep2 h hrows hal
    cases b with
    | window w =>
      rw [buildGo] at h
      cases hw : processWindows ecol ccol (etcols w.table) (tables w.table).attrCols spine
          (tables w.table).rows w.table lag w.windows w.metrics out with
      | error e => rw [hw] at h; cases h
      | ok o =>
        rw [hw] at h
        have hpw := processWindows_preserves ecol ccol (etcols w.table)
          (tables w.table).attrCols spine (tables w.table).rows w.table lag
          w.windows w.metrics out o hw hrows hal
        exact ih o _ out2 rep2 h hpw.1 hpw.2
    | recency table filt =>
      simp only [buildGo] at h
      have hset := setColIf_preserves True
        out (recencyColName table filt)
        (spine.map fun s =>
          (recencyVal (filter_events_point_in_time spine
            (match filt with
             | none => (tables table).rows
             | some (c, v) => (tables table).rows.filter fun e => e.attrs.lookup c == some v)
            lag).1 s).map fun d => (d : Rat))
        spine hrows hal (List.length_map _ _)
      simp only [if_pos trivial] at hset
      exact ih _ rep out2 rep2 h hset.1 hset.2

/-- C4: a successful `build_features` returns a copy of the spine with exactly
as many rows as the input spine, in the supplied row order (the row list is
the spine itself, duplicates included), and every appended feature column is
aligned 1:1 with those rows. -/
theorem build_row_preservation (spine : List SpineRow) (tables : String → EventsTable)
    (etcols : String → String) (blocks : List Block) (ecol ccol : String)
    (lag : Int) (rr : Bool) (out : OutDF) (rep : List (String × AuditDict))
    (h : build_features spine tables etcols blocks ecol ccol lag rr = .ok (out, rep)) :
    out.rows = spine ∧ out.rows.length = spine.length
    ∧ ∀ c ∈ out.feats, c.2.length = spine.length := by
  have hb := buildGo_preserves tables etcols ecol ccol lag rr spine blocks
    ⟨spine, []⟩ [] out rep h rfl (by intro c hc; cases hc)
  exact ⟨hb.1, by rw [hb.1], hb.2⟩

/-- C4 witness: the row-preservation theorem applied to a concrete build with
a duplicated spine row. -/
theorem build_row_preservation_witness :
    (OutDF.mk [⟨1, 10⟩, ⟨1, 10⟩] [("events__n_events__7d", [some 2, some 2])]).rows
      = [⟨1, 10⟩, ⟨1, 10⟩] :=
  (build_row_preservation [⟨1, 10⟩, ⟨1, 10⟩]
    (fun _ => ⟨["amount"], [⟨1, 5, [("amount", 7)]⟩]⟩) (fun _ => "event_time")
    [.window ⟨"events", [("7D", 7)], [("*", ["count"])]⟩]
    "entity_id" "cutoff_time" 0 false
    ⟨[⟨1, 10⟩, ⟨1, 10⟩], [("events__n_events__7d", [some 2, some 2])]⟩ []
    (by decide)).1

theorem addTable_keys (rep : List (String × AuditDict)) (name : String) (a : AuditDict) :
    (∀ q, q ∈ (addTable rep name a).map Prod.fst ↔ q ∈ rep.map Prod.fst ∨ q = name)
    ∧ ((rep.map Prod.fst).Nodup → ((addTable rep name a).map Prod.fst).Nodup) := by
  unfold addTable
  by_cases hc : (rep.map Prod.fst).contains name = true
  · rw [if_pos hc]
    have hkeys : (rep.map fun e => if e.1 = name then (name, a) else e).map Prod.fst
        = rep.map Prod.fst := by
      rw [List.map_map]
      exact List.map_congr_left fun e _ => by
        by_cases h : e.1 = name <;> simp [h]
    rw [hkeys]
    have hname : name ∈ rep.map Prod.fst := by simpa using hc
    refine ⟨fun q => ⟨Or.inl, ?_⟩, id⟩
    rintro (h | rfl)
    · exact h
    · exact hname
  · rw [if_neg hc]
    rw [List.map_append]
    constructor
    · intro q
      simp
    · intro hnd
      rw [List.nodup_append]
      refine ⟨hnd, List.nodup_singleton _, ?_⟩
      intro x hx hx1
      simp at hx1
      subst hx1
      exact hc (by simpa using hx)

theorem buildGo_keys (tables : String → EventsTable) (etcols : String → String)
    (ecol ccol : String) (lag : Int) (spine : List SpineRow) :
    ∀ (blocks : List Block) (out : OutDF) (rep : List (String × AuditDict))
      (out2 : OutDF) (rep2 : List (String × AuditDict)),
    buildGo tables etcols ecol ccol lag true spine blocks out rep = .ok (out2, rep2) →
    ((rep.map Prod.fst).Nodup → (rep2.map Prod.fst).Nodup)
    ∧ ∀ name, name ∈ rep2.map Prod.fst ↔
        name ∈ rep.map Prod.fst ∨ ∃ b ∈ blocks, contributesAudit b name = true := by
  intro blocks
  induction blocks with
  | nil =>
    intro out rep out2 rep2 h
    rw [buildGo, Except.ok.injEq] at h
    injection h with h1 h2
    subst h2
    refine ⟨id, fun name => ?_⟩
    constructor
    · exact Or.inl
    · rintro (h1 | ⟨b, hb, _⟩)
      · exact h1
      · cases hb
  | cons b rest ih =>
    intro out rep out2 rep2 h
    cases b with
    | window w =>
      rw [buildGo] at h
      cases hw : processWindows ecol ccol (etcols w.table) (tables w.table).attrCols spine
          (tables w.table).rows w.table lag w.windows w.metrics out with
      | error e => rw [hw] at h; cases h
      | ok o =>
        rw [hw] at h
        cases hwin : w.windows with
        | nil =>
          rw [hwin] at h
          have hr := ih o rep out2 rep2 h
          refine ⟨hr.1, fun name => ?_⟩
          rw [hr.2 name]
          have hca : contributesAudit (.window w) name = false := by
            simp [contributesAudit, hwin]
          constructor
          · rintro (h1 | ⟨b, hb, hcb⟩)
            · exact Or.inl h1
            · exact Or.inr ⟨b, List.mem_cons_of_mem _ hb, hcb⟩
          · rintro (h1 | ⟨b, hb, hcb⟩)
            · exact Or.inl h1
            · rcases List.mem_cons.mp hb with rfl | hb
              · rw [hca] at hcb; cases hcb
              · exact Or.inr ⟨b, hb, hcb⟩
        | cons wp ws =>
          rw [hwin] at h
          have hr := ih o
            (addTable rep w.table (eventsInWindow spine (tables w.table).rows wp.2 lag).2)
            out2 rep2 h
          have hak := addTable_keys rep w.table
            (eventsInWindow spine (tables w.table).rows wp.2 lag).2
          refine ⟨fun hnd => hr.1 (hak.2 hnd), fun name => ?_⟩
          rw [hr.2 name, hak.1 name]
          have hca : contributesAudit (.window w) name = (w.table == name) := by
            simp [contributesAudit, hwin]
          constructor
          · rintro ((h1 | rfl) | ⟨b, hb, hcb⟩)
            · exact Or.inl h1
            · refine Or.inr ⟨.window w, List.mem_cons_self _ _, ?_⟩
              rw [hca]
              simp
            · exact Or.inr ⟨b, List.mem_cons_of_mem _ hb, hcb⟩
          · rintro (h1 | ⟨b, hb, hcb⟩)
            · exact Or.inl (Or.inl h1)
            · rcases List.mem_cons.mp hb with rfl | hb
              · rw [hca] at hcb
                have hwt : w.table = name := by simpa using hcb
                exact Or.inl (Or.inr hwt.symm)
              · exact Or.inr ⟨b, hb, hcb⟩
    | recency table filt =>
      simp only [buildGo] at h
      have hr := ih _ rep out2 rep2 h
      refine ⟨hr.1, fun name => ?_⟩
      rw [hr.2 name]
      constructor
      · rintro (h1 | ⟨b, hb, hcb⟩)
        · exact Or.inl h1
        · exact Or.inr ⟨b, List.mem_cons_of_mem _ hb, hcb⟩
      · rintro (h1 | ⟨b, hb, hcb⟩)
        · exact Or.inl h1
        · rcases List.mem_cons.mp hb with rfl | hb
          · cases hcb
          · exact Or.inr ⟨b, hb, hcb⟩

/-- C7 amended: when a report is requested, the audit report holds exactly one
entry per table referenced by at least one window-aggregation block whose
window list is non-empty (keyed by table name, a later record for the same
table replacing the earlier one); recency blocks, and window-aggregation
blocks with an empty window list, contribute no entry. -/
theorem audit_report_tables (spine : List SpineRow) (tables : String → EventsTable)
    (etcols : String → String) (blocks : List Block) (ecol ccol : String) (lag : Int)
    (out : OutDF) (rep : List (String × AuditDict))
    (h : build_features spine tables etcols blocks ecol ccol lag true = .ok (out, rep)) :
    (rep.map Prod.fst).Nodup
    ∧ ∀ name, name ∈ rep.map Prod.fst ↔ ∃ b ∈ blocks, contributesAudit b name = true := by
  have hk := buildGo_keys tables etcols ecol ccol lag spine blocks ⟨spine, []⟩ [] out rep h
  refine ⟨hk.1 List.nodup_nil, fun name => ?_⟩
  rw [hk.2 name]
  simp

/-- C7 counterexample: a window-aggregation block with an empty window list
references table `t`, yet a build with a report requested returns an audit
report with no entry at all — not one entry per referenced table. -/
theorem audit_report_empty_windows_cex :
    (build_features [⟨1, 0⟩] (fun _ => ⟨[], []⟩) (fun _ => "event_time")
        [.window ⟨"t", [], []⟩] "entity_id" "cutoff_time" 0 true)
      = .ok (⟨[⟨1, 0⟩], []⟩, [])
    ∧ referencesTable (.window ⟨"t", [], []⟩) "t" = true := by decide

/-- C7 witness: the audit-report theorem applied to a concrete build with one
single-window block over table `t`. -/
theorem audit_report_tables_witness :
    (([("t", AuditDict.mk 1 1 0 none)].map Prod.fst).Nodup) :=
  (audit_report_tables [⟨1, 10⟩] (fun _ => ⟨[], [⟨1, 5, []⟩]⟩) (fun _ => "event_time")
    [.window ⟨"t", [("7D", 7)], [("*", ["count"])]⟩] "entity_id" "cutoff_time" 0
    ⟨[⟨1, 10⟩], [("t__n_events__7d", [some 1])]⟩ [("t", ⟨1, 1, 0, none⟩)] (by decide)).1

theorem set_frame (σ : Store) (r : Nat) (o : Obj) (q : Nat) (h : q ≠ r) :
    (σ.set r o).mem q = σ.mem q := by
  simp [Store.set, h]

theorem set_next (σ : Store) (r : Nat) (o : Obj) : (σ.set r o).next = σ.next := rfl

theorem alloc_frame (σ : Store) (o : Obj) (q : Nat) (h : q < σ.next) :
    (σ.alloc o).1.mem q = σ.mem q := by
  have hne : q ≠ σ.next := by omega
  simp [Store.alloc, hne]

theorem filter_st_frame (σ : Store) (rs re : Nat) (lag : Int) (q : Nat) (hq : q < σ.next) :
    (filter_events_point_in_time_st σ rs re lag).1.mem q = σ.mem q := by
  unfold filter_events_point_in_time_st
  have h1 : q ≠ σ.next := by omega
  have h2 : q ≠ σ.next + 1 := by omega
  cases hre : readSpineEvents σ rs re with
  | none => rfl
  | some pr =>
    obtain ⟨sp, ev⟩ := pr
    simp [Store.set, Store.alloc, h1, h2]

theorem buildGo_st_frame (tableRefs : String → Nat) (etcols : String → String)
    (ecol ccol : String) (lag : Int) (rr : Bool) (spine : List SpineRow) :
    ∀ (blocks : List Block) (σ : Store) (rOut : Nat) (rep : List (String × AuditDict))
      (q : Nat), q < σ.next → q ≠ rOut →
    ((buildGo_st tableRefs etcols ecol ccol lag rr spine blocks σ rOut rep).1.mem q = σ.mem q)
    ∧ σ.next ≤ (buildGo_st tableRefs etcols ecol ccol lag rr spine blocks σ rOut rep).1.next := by
  intro blocks
  induction blocks with
  | nil =>
    intro σ rOut rep q hq hne
    exact ⟨rfl, le_refl _⟩
  | cons b rest ih =>
    intro σ rOut rep q hq hne
    cases b with
    | window w =>
      rw [buildGo_st]
      cases hre : readOutEvents σ rOut (tableRefs w.table) with
      | none => exact ⟨rfl, le_refl _⟩
      | some pr =>
        obtain ⟨out, ev⟩ := pr
        dsimp only
        cases hpw : processWindows ecol ccol (etcols w.table) ev.attrCols spine ev.rows
            w.table lag w.windows w.metrics out with
        | error e => exact ⟨rfl, le_refl _⟩
        | ok out2 =>
          have hih := ih (σ.set rOut (.outT out2)) rOut
            (if rr then
              match w.windows with
              | [] => rep
              | (_, wlen) :: _ => addTable rep w.table (eventsInWindow spine ev.rows wlen lag).2
            else rep) q hq hne
          exact ⟨(hih.1).trans (set_frame _ _ _ _ hne), hih.2⟩
    | recency table filt =>
      rw [buildGo_st]
      cases hre : readOutEvents σ rOut (tableRefs table) with
      | none => exact ⟨rfl, le_refl _⟩
      | some pr =>
        obtain ⟨out, ev⟩ := pr
        have hq2 : q < σ.next + 1 := by omega
        have hih := ih (((σ.alloc (.eventsT ev)).1).set rOut
            (.outT (setCol out (recencyColName table filt)
              (spine.map fun s => (recencyVal
                (filter_events_point_in_time spine
                  (match filt with
                   | none => ev.rows
                   | some (c, v) => ev.rows.filter fun e => e.attrs.lookup c == some v)
                  lag).1 s).map fun d => (d : Rat)))))
            rOut rep q hq2 hne
        refine ⟨?_, le_trans (Nat.le_succ _) hih.2⟩
        exact (hih.1).trans (by rw [set_frame _ _ _ _ hne, alloc_frame _ _ _ hq])

theorem build_st_frame (σ : Store) (rSpine : Nat) (tableRefs : String → Nat)
    (etcols : String → String) (blocks : List Block) (ecol ccol : String)
    (lag : Int) (rr : Bool) (q : Nat) (hq : q < σ.next) :
    (build_features_st σ rSpine tableRefs etcols blocks ecol ccol lag rr).1.mem q
      = σ.mem q := by
  unfold build_features_st
  have h1 : q ≠ σ.next := by omega
  cases hsp : σ.mem rSpine with
  | none => rfl
  | some o =>
    cases o with
    | spineT sp =>
      have hq2 : q < (((σ.alloc (.outT ⟨sp, []⟩)).1).set σ.next (.outT ⟨sp, []⟩)).next := by
        show q < σ.next + 1
        omega
      have hframe := buildGo_st_frame tableRefs etcols ecol ccol lag rr sp blocks
        (((σ.alloc (.outT ⟨sp, []⟩)).1).set σ.next (.outT ⟨sp, []⟩)) σ.next [] q hq2 h1
      exact (hframe.1).trans (by rw [set_frame _ _ _ _ h1, alloc_frame _ _ _ hq])
    | eventsT t => rfl
    | outT d => rfl

/-- C9: no call into the engine mutates the caller-supplied tables: after
`filter_events_point_in_time` or `build_features` over the object store —
whether the call returns normally or fails — every object allocated before
the call (in particular the spine and every event table) is unchanged; the
engine only writes its own copies and fresh allocations. -/
theorem inputs_never_mutated (σ : Store) (rs re rSpine : Nat) (tableRefs : String → Nat)
    (etcols : String → String) (blocks : List Block) (ecol ccol : String)
    (lag : Int) (rr : Bool) (q : Nat) (hq : q < σ.next) :
    ((filter_events_point_in_time_st σ rs re lag).1.mem q = σ.mem q)
    ∧ ((build_features_st σ rSpine tableRefs etcols blocks ecol ccol lag rr).1.mem q
        = σ.mem q) :=
  ⟨filter_st_frame σ rs re lag q hq,
    build_st_frame σ rSpine tableRefs etcols blocks ecol ccol lag rr q hq⟩

/-- C9 witness: the no-mutation theorem applied to a concrete two-object
store holding a spine and an events table. -/
theorem inputs_never_mutated_witness :
    ((filter_events_point_in_time_st
        ⟨fun q => if q = 0 then some (.spineT [⟨1, 5⟩]) else some (.eventsT ⟨[], []⟩), 2⟩
        0 1 0).1.mem 0 = some (.spineT [⟨1, 5⟩]))
    ∧ ((build_features_st
        ⟨fun q => if q = 0 then some (.spineT [⟨1, 5⟩]) else some (.eventsT ⟨[], []⟩), 2⟩
        0 (fun _ => 1) (fun _ => "event_time") [.recency "t" none] "e" "c" 0 false).1.mem 0
        = some (.spineT [⟨1, 5⟩])) :=
  inputs_never_mutated
    ⟨fun q => if q = 0 then some (.spineT [⟨1, 5⟩]) else some (.eventsT ⟨[], []⟩), 2⟩
    0 1 0 (fun _ => 1) (fun _ => "event_time") [.recency "t" none] "e" "c" 0 false 0
    (by decide)

theorem dedup_all_eq {α : Type} [DecidableEq α] (a : α) :
    ∀ l : List α, l ≠ [] → (∀ x ∈ l, x = a) → l.dedup = [a] := by
  intro l
  induction l with
  | nil =>
    intro h _
    exact absurd rfl h
  | cons b t ih =>
    intro _ hall
    have hb : b = a := hall b (List.mem_cons_self _ _)
    subst hb
    cases t with
    | nil => simp
    | cons c t2 =>
      have ht : (c :: t2).dedup = [b] :=
        ih (by simp) fun x hx => hall x (List.mem_cons_of_mem _ hx)
      have hcb : c = b := hall c (List.mem_cons_of_mem _ (List.mem_cons_self _ _))
      have hmem : b ∈ c :: t2 := by
        rw [hcb]
        exact List.mem_cons_self _ _
      rw [List.dedup_cons_of_mem hmem, ht]

theorem nuniqueFeatVal_entity (ecol ccol tcol : String) (pairs : List Pair) (s : SpineRow) :
    nuniqueFeatVal ecol ccol tcol ecol pairs s
      = if (groupPairs pairs s.entity s.cutoff).isEmpty then 0 else 1 := by
  unfold nuniqueFeatVal leftJoinVal
  by_cases hg : (groupPairs pairs s.entity s.cutoff).isEmpty
  · simp [hg]
  · rw [if_neg hg, if_neg hg]
    have hall : ∀ x ∈ (groupPairs pairs s.entity s.cutoff).map (getCol ecol ccol tcol ecol),
        x = (s.entity : Rat) := by
      intro x hx
      obtain ⟨p, hp, hpx⟩ := List.mem_map.mp hx
      have hpe : p.1.entity = s.entity := by
        have hcond := (List.mem_filter.mp hp).2
        have : (p.1.entity == s.entity) = true := by
          exact (Bool.and_eq_true _ _).mp hcond |>.1
        exact beq_iff_eq.mp this
      rw [← hpx]
      simp [getCol, hpe]
    have hne : (groupPairs pairs s.entity s.cutoff).map (getCol ecol ccol tcol ecol) ≠ [] := by
      rw [Ne, List.map_eq_nil_iff]
      intro hnil
      rw [hnil] at hg
      exact hg rfl
    dsimp only
    rw [dedup_all_eq _ _ hne hall]
    simp

/-- C10: the missing-dimension check runs against the joined frame, whose
columns are the spine keys plus the event columns, so a metrics dimension
equal to the spine's entity (or cutoff) column name passes the check even
though it is not an attribute column of the event table, and the build then
aggregates the spine key column itself: a `nunique` over the entity column
yields 1 for every spine row with at least one qualifying event (0 otherwise). -/
theorem spine_key_dimension_aggregated (spine : List SpineRow) (tbl : EventsTable)
    (ecol ccol tcol wlbl : String) (wlen lag : Int)
    (hstar : ecol ≠ "*") (_hecol : ecol ∉ tbl.attrCols) :
    (ecol ∈ mergedColumns ecol ccol tcol tbl.attrCols
      ∧ ccol ∈ mergedColumns ecol ccol tcol tbl.attrCols)
    ∧ build_features spine (fun _ => tbl) (fun _ => tcol)
        [.window ⟨"t", [(wlbl, wlen)], [(ecol, ["nunique"])]⟩] ecol ccol lag false
      = .ok (⟨spine, [(aggColName "t" ecol "nunique" wlbl,
          spine.map fun s =>
            some (if (groupPairs (eventsInWindow spine tbl.rows wlen lag).1
                s.entity s.cutoff).isEmpty then 0 else 1))]⟩, []) := by
  refine ⟨⟨List.mem_cons_self _ _, List.mem_cons_of_mem _ (List.mem_cons_self _ _)⟩, ?_⟩
  have hcol : ¬(ecol ≠ "*" ∧ ecol ∉ mergedColumns ecol ccol tcol tbl.attrCols) := by
    intro h
    exact h.2 (List.mem_cons_self _ _)
  have hs : ((["nunique"] : List String).contains "sum") = false := rfl
  have hm : ((["nunique"] : List String).contains "mean") = false := rfl
  have hn : ((["nunique"] : List String).contains "nunique") = true := rfl
  have hpd : processDim ecol ccol tcol tbl.attrCols spine
      (eventsInWindow spine tbl.rows wlen lag).1 "t" wlbl ecol ["nunique"] ⟨spine, []⟩
      = .ok ⟨spine, [(aggColName "t" ecol "nunique" wlbl,
          spine.map fun s => some (nuniqueFeatVal ecol ccol tcol ecol
            (eventsInWindow spine tbl.rows wlen lag).1 s))]⟩ := by
    unfold processDim
    rw [if_neg hcol, if_neg hstar]
    simp only [hs, hm, hn]
    simp [setCol]
  have hvals : (spine.map fun s => some (nuniqueFeatVal ecol ccol tcol ecol
        (eventsInWindow spine tbl.rows wlen lag).1 s))
      = spine.map fun s =>
          some (if (groupPairs (eventsInWindow spine tbl.rows wlen lag).1
              s.entity s.cutoff).isEmpty then (0 : Rat) else 1) :=
    List.map_congr_left fun s _ => by rw [nuniqueFeatVal_entity]
  show buildGo (fun _ => tbl) (fun _ => tcol) ecol ccol lag false spine
      [.window ⟨"t", [(wlbl, wlen)], [(ecol, ["nunique"])]⟩] ⟨spine, []⟩ [] = _
  rw [buildGo]
  have hws : processWindows ecol ccol tcol tbl.attrCols spine tbl.rows "t" lag
      [(wlbl, wlen)] [(ecol, ["nunique"])] ⟨spine, []⟩
      = .ok ⟨spine, [(aggColName "t" ecol "nunique" wlbl,
          spine.map fun s => some (nuniqueFeatVal ecol ccol tcol ecol
            (eventsInWindow spine tbl.rows wlen lag).1 s))]⟩ := by
    rw [processWindows, processMetrics, hpd]
    rfl
  rw [hws]
  exact congrArg (fun v =>
    (Except.ok (OutDF.mk spine [(aggColName "t" ecol "nunique" wlbl, v)],
        ([] : List (String × AuditDict))) :
      Except String (OutDF × List (String × AuditDict)))) hvals

/-- C10 witness: the spine-key-aggregation theorem applied at a concrete
spine and events table whose only attribute column is `amount`. -/
theorem spine_key_dimension_aggregated_witness :
    ("entity_id" ∈ mergedColumns "entity_id" "cutoff_time" "event_time" ["amount"]
      ∧ "cutoff_time" ∈ mergedColumns "entity_id" "cutoff_time" "event_time" ["amount"]) :=
  (spine_key_dimension_aggregated [⟨1, 10⟩] ⟨["amount"], [⟨1, 5, [("amount", 3)]⟩]⟩
    "entity_id" "cutoff_time" "event_time" "7D" 7 0 (by decide) (by decide)).1

end SafeFeat
